import Mathlib

/-!
# Verification of the EDNA self-aware-genome core

Shallow embedding of the field-registration/reflection core of the
repository (src/settings/mutationbounds.hpp, src/genotype/selfawaregenome.hpp)
together with proofs of the behavioural properties stated in its
specification.

Scalar fields are modelled over `Int` (the fundamental integral
specialisation of `MutationSettings::BoundsOperators`); real-valued
quantities (genomic distances, mutation/distance weights) are modelled
over `ℚ`.  The random source (`rng::AbstractDice`, an external
collaborator wrapping `std::mt19937`) is modelled abstractly: each
uniform draw consumes one element of an integer stream, and
distribution-level draws (coin toss, discrete-distribution index) appear
as explicit parameters constrained by the guarantees the C++ standard
gives for the corresponding distribution.
-/

namespace EDNA

/-! ## Scalar bounds operators (mutationbounds.hpp)

`MutationSettings::BoundsOperators<T>` for fundamental integral `T`,
modelled with `T = Int`. -/

/-- `BoundsOperators<T>::check (T &v, T min, T max)` for fundamental `T`:
clamps `v` into `[min,max]` and returns whether `v` was already inside.
Result is the pair (clamped value, returned boolean). -/
def checkInt (v lo hi : Int) : Int × Bool :=
  -- bool ok = true; if (v < min) v = min, ok &= false;
  let p1 := if v < lo then (lo, false) else (v, true)
  -- if (max < v) v = max, ok &= false;
  if hi < p1.1 then (hi, false) else p1

/-- `BoundsOperators<T>::_mutate` for integral `T`: step by one, moving
inward when sitting on a bound.  `coin` is the result of the
`dice(.5)` Bernoulli draw (`true` selects the `-1` branch). -/
def mutateInt (v lo hi : Int) (coin : Bool) : Int :=
  if v = lo then lo + 1
  else if v = hi then hi - 1
  else v + (if coin then -1 else 1)

/-- `BoundsOperators<E>::mutate` for enumeration types: forwards the
value through the integral operator (`int iv = v; Operator::mutate(iv, ...)`)
and casts back. -/
def mutateEnum (v lo hi : Int) (coin : Bool) : Int :=
  mutateInt v lo hi coin

/-- `BoundsOperators<T>::_mutate` for floating-point `T`: when
`min < max`, adds a draw from a truncated normal distribution, which by
construction of `rng::truncated_normal_distribution` lies in
`[min - v, max - v]`; the draw is the explicit parameter `r`. -/
def mutateRat (v lo hi : ℚ) (r : ℚ) : ℚ :=
  if lo < hi then v + r else v

/-- `BoundsOperators<T>::span`. -/
def span (lo hi : Int) : ℚ :=
  (hi : ℚ) - (lo : ℚ)

/-- `BoundsOperators<T>::distance` for fundamental `T`:
`(max(lhs,rhs) - min(lhs,rhs)) / span(min,max)`, computed in real
arithmetic (C++ `double`, modelled by `ℚ`). -/
def distanceInt (l r lo hi : Int) : ℚ :=
  ((max l r : Int) - (min l r : Int) : Int) / span lo hi

/-! ## Genome model (selfawaregenome.hpp)

A concrete `EDNA` genome whose auto-managed fields are bounds-driven
fundamental scalars (`GenomeFieldWithBounds` over `Int`).  The static
per-type registry `_iterator` (an ordered `std::map` from field name to
field manager) is modelled as a list of field descriptors; a genome
instance is a valuation of field names.  The end-user extension hooks
(`randomExtension`, `mutateExtension`, ...) keep their default (no-op)
implementations. -/

/-- One registered field manager (`GenomeFieldWithBounds`): canonical
name, serialization key (the `alias()` of the manager), and the four
ordered values of its `MutationSettings::Bounds` object
(`min ≤ rndMin ≤ rndMax ≤ max`). -/
structure GenomeField where
  name : String
  key : String
  lo : Int
  rndLo : Int
  rndHi : Int
  hi : Int
deriving DecidableEq

/-- A genome instance: a valuation of field names. -/
def Genome : Type := String → Int

/-- In-place write of one field of a genome (`get(object) = value`). -/
def update (g : Genome) (n : String) (v : Int) : Genome :=
  fun m => if m = n then v else g m

/-- `EDNA::check(G&)` (static): iterates the registry, letting every
field manager clamp its field (`ok &= get(it).check(object)`); returns
the final genome and the accumulated boolean. -/
def checkGenome : List GenomeField → Genome → Genome × Bool
  | [], g => (g, true)
  | f :: fs, g =>
    let c := checkInt (g f.name) f.lo f.hi
    let r := checkGenome fs (update g f.name c.1)
    (r.1, c.2 && r.2)

/-- `EDNA::operator==`: conjunction of per-field structural equality
(`eq &= get(it).equal(lhs, rhs)`). -/
def genomeEq (reg : List GenomeField) (a b : Genome) : Bool :=
  reg.all fun f => a f.name == b f.name

/-- `EDNA::to_json`: one JSON key per field, written under the alias of
the field (`get(it).to_json(j[get(it).alias()], g)`).  A JSON object is
modelled as a key/value association list. -/
def toJson (reg : List GenomeField) (g : Genome) : List (String × Int) :=
  reg.map fun f => (f.key, g f.name)

/-- `nlohmann::json::find` on an object: first value stored under a key. -/
def jsonFind : List (String × Int) → String → Option Int
  | [], _ => none
  | p :: ps, k => if p.1 = k then some p.2 else jsonFind ps k

/-- `nlohmann::json::erase` of one key of an object. -/
def jsonErase : List (String × Int) → String → List (String × Int)
  | [], _ => []
  | p :: ps, k => if p.1 = k then ps else p :: jsonErase ps k

/-- Result of the registry loop of `EDNA::from_json`: the genome after
the in-place per-field loads, the not-yet-consumed part of the JSON
object, the error flag and the aggregated error messages. -/
structure LoadResult where
  g : Genome
  rem : List (String × Int)
  ok : Bool
  errs : List String

/-- The per-field loop of `EDNA::from_json`: for every registered field,
look its alias up in the JSON object; when present, load the value into
the genome and consume the key; otherwise record a missing-field error. -/
def fromJsonLoop : List GenomeField → List (String × Int) → Genome → LoadResult
  | [], j, g => ⟨g, j, true, []⟩
  | f :: fs, j, g =>
    match jsonFind j f.key with
    | some v => fromJsonLoop fs (jsonErase j f.key) (update g f.name v)
    | none =>
      let r := fromJsonLoop fs j g
      ⟨r.g, r.rem, false, ("Unable to find field " ++ f.name) :: r.errs⟩

/-- Result of `EDNA::from_json`: final state of the by-reference genome,
whether the function returns normally (`ok = false` means
`std::invalid_argument` is thrown) and the aggregated error message. -/
structure FromJsonResult where
  g : Genome
  ok : Bool
  errs : List String

/-- `EDNA::from_json`: run the registry loop, flag any key left over in
the JSON object as an extra field, run `g.check()` (whose boolean result
is discarded), then throw iff an error was recorded. -/
def fromJson (reg : List GenomeField) (j : List (String × Int)) (g : Genome) :
    FromJsonResult :=
  let r := fromJsonLoop reg j g
  ⟨(checkGenome reg r.g).1,
   r.ok && r.rem.isEmpty,
   r.errs ++ r.rem.map fun p => "Extra field " ++ p.1⟩

/-- Key-only characterisation of the error decision of `from_json`: per
registered field one matching key of the object is consumed, and any key
left over is an extra.  Used to state that the throw decision of
`from_json` depends only on the key set of the input object and never on
the stored values. -/
def fromJsonOkKeys : List GenomeField → List String → Bool
  | [], ks => ks.isEmpty
  | f :: fs, ks => if f.key ∈ ks then fromJsonOkKeys fs (ks.erase f.key) else false

/-- `EDNA::distance` (static): weighted sum over the registry of the
per-field distances, `d += _distanceWeights.get().at(name) * dist`.
The distance-weights map is validated at startup to be total on the
registered field names and is modelled as the function `w`. -/
def distanceGenome (reg : List GenomeField) (w : String → ℚ) (a b : Genome) : ℚ :=
  reg.foldl (fun d f => d + w f.name * distanceInt (a f.name) (b f.name) f.lo f.hi) 0

/-- `AbstractDice::pickOne`: extracts the key vector of the
name-to-weight map and indexes it with a draw from
`std::discrete_distribution` over the weight vector; `i` is that draw
(guaranteed by the distribution to be a valid index). -/
def pickOne (m : List (String × ℚ)) (i : Nat) : Option String :=
  (m.map Prod.fst).get? i

/-- `EDNA::mutate` (static): pick one field name by weighted random
choice over the mutation-rates map, look its manager up in the registry
(`_iterator.at`) and mutate that single field; `coin` is the Bernoulli
draw consumed by the integral scalar mutation.  `none` models the
out-of-range/lookup exceptions that the startup validation of the rates
map rules out. -/
def mutateGenome (reg : List GenomeField) (rates : List (String × ℚ)) (i : Nat)
    (coin : Bool) (g : Genome) : Option Genome :=
  match pickOne rates i with
  | none => none
  | some fieldName =>
    match reg.find? (fun f => f.name == fieldName) with
    | none => none
    | some f => some (update g f.name (mutateInt (g f.name) f.lo f.hi coin))

/-- Model of `std::uniform_int_distribution` over `[lo,hi]` fed by one
raw draw of the underlying generator: a pure function of the raw draw
returning a value in the requested range. -/
def drawInt (lo hi raw : Int) : Int :=
  lo + raw.emod (hi - lo + 1)

/-- The registry loop of `EDNA::random` (static): every field manager
draws `bounds.rand(dice)`, i.e. a uniform value in `[rndMin, rndMax]`,
consuming the raw generator stream `s` in registry order from
position `k`. -/
def randomGo : List GenomeField → (Nat → Int) → Nat → Genome → Genome
  | [], _, _, g => g
  | f :: fs, s, k, g =>
    randomGo fs s (k + 1) (update g f.name (drawInt f.rndLo f.rndHi (s k)))

/-- `EDNA::random` (static): default-construct (fields value-initialised
to zero), then randomise every registered field from the generator
stream `s`. -/
def randomGenome (reg : List GenomeField) (s : Nat → Int) : Genome :=
  randomGo reg s 0 fun _ => 0

/-- `Aggregator<T,O>` for fundamental/enum `T`: sort the collected
values, clip the verbosity to the value count minus two, and print the
evenly-spaced sample `values[i * (size-1) / (verbosity+1)]` for
`i = 0, ..., verbosity+1`. -/
def aggregateField (values : List Int) (verbosity : Nat) : List Int :=
  let sorted := values.mergeSort (· ≤ ·)
  let v := min verbosity (values.length - 2)
  (List.range (v + 2)).map fun i => sorted.getD (i * (values.length - 1) / (v + 1)) 0

/-- `EDNA::aggregate` (static): throws `std::invalid_argument` on fewer
than two instances, otherwise emits, per registered field, its alias and
the aggregated sample of its values across the collection. -/
def aggregate (reg : List GenomeField) (objs : List Genome) (verbosity : Nat) :
    Except String (List (String × List Int)) :=
  if objs.length < 2 then
    Except.error ("Aggregating " ++ toString objs.length ++ " makes no sense...")
  else
    Except.ok (reg.map fun f =>
      (f.key, aggregateField (objs.map fun g => g f.name) verbosity))

/-! ## Concrete fixtures used by the witness theorems -/

/-- A bounds-driven integer field `x` with bounds `[0,10]`. -/
def fieldX : GenomeField := ⟨"x", "x", 0, 0, 10, 10⟩

/-- A bounds-driven integer field `y` with bounds `[0,10]`. -/
def fieldY : GenomeField := ⟨"y", "y", 0, 0, 10, 10⟩

/-- A two-field registry. -/
def regXY : List GenomeField := [fieldX, fieldY]

/-- The default-constructed genome (fields value-initialised). -/
def gZero : Genome := fun _ => 0

/-- A genome holding 1 everywhere. -/
def gOne : Genome := fun _ => 1

/-- A genome holding 3 everywhere. -/
def gThree : Genome := fun _ => 3

/-- A single-entry mutation-rates map. -/
def ratesX : List (String × ℚ) := [("x", 1)]

/-! ## Supporting lemmas: scalar operators -/

/-- Supporting fact: integral mutation from inside non-degenerate bounds
stays inside the bounds (the guarantee breaks exactly at `lo = hi`,
see the C2 theorem). -/
theorem mutateInt_mem (v lo hi : Int) (coin : Bool)
    (hlt : lo < hi) (h1 : lo ≤ v) (h2 : v ≤ hi) :
    lo ≤ mutateInt v lo hi coin ∧ mutateInt v lo hi coin ≤ hi := by
  unfold mutateInt
  split
  · omega
  · split
    · omega
    · rcases coin with _ | _ <;> simp <;> omega

/-- Supporting fact: the floating-point mutation keeps the value inside
the bounds, given the truncated-normal guarantee on the draw. -/
theorem mutateRat_mem (v lo hi r : ℚ)
    (h1 : lo ≤ v) (h2 : v ≤ hi) (hr : lo - v ≤ r ∧ r ≤ hi - v) :
    lo ≤ mutateRat v lo hi r ∧ mutateRat v lo hi r ≤ hi := by
  unfold mutateRat
  split
  · constructor <;> linarith [hr.1, hr.2]
  · exact ⟨h1, h2⟩

theorem checkInt_id (v lo hi : Int) (h1 : lo ≤ v) (h2 : v ≤ hi) :
    checkInt v lo hi = (v, true) := by
  have ha : ¬ v < lo := not_lt.mpr h1
  have hb : ¬ hi < v := not_lt.mpr h2
  simp [checkInt, ha, hb]

theorem checkInt_clamp_mem (v lo hi : Int) (h : lo ≤ hi) :
    lo ≤ (checkInt v lo hi).1 ∧ (checkInt v lo hi).1 ≤ hi := by
  simp only [checkInt]
  split_ifs <;> simp_all

/-! ## Supporting lemmas: genome updates -/

theorem update_self (g : Genome) (n : String) : update g n (g n) = g := by
  funext m
  unfold update
  split <;> simp_all

theorem update_ne (g : Genome) (n : String) (v : Int) (m : String)
    (h : m ≠ n) : update g n v m = g m := by
  simp [update, h]

theorem update_same (g : Genome) (n : String) (v : Int) : update g n v n = v := by
  simp [update]

/-! ## Supporting lemmas: JSON association-list operations -/

theorem jsonFind_eq_none_iff (j : List (String × Int)) (k : String) :
    jsonFind j k = none ↔ k ∉ j.map Prod.fst := by
  induction j with
  | nil => simp [jsonFind]
  | cons p ps ih =>
    simp only [jsonFind, List.map_cons, List.mem_cons]
    split
    · rename_i h
      subst h
      simp
    · rename_i h
      rw [ih]
      constructor
      · intro hn hc
        rcases hc with hc | hc
        · exact h hc.symm
        · exact hn hc
      · intro hn hc
        exact hn (Or.inr hc)

theorem jsonFind_erase_none (j : List (String × Int)) (a k : String)
    (h : jsonFind j k = none) : jsonFind (jsonErase j a) k = none := by
  induction j with
  | nil => exact h
  | cons p ps ih =>
    simp only [jsonFind] at h
    by_cases hp : p.1 = k
    · simp [hp] at h
    · simp only [jsonFind, hp, if_neg] at h
      simp only [jsonErase]
      split
      · exact h
      · simp [jsonFind, hp, ih h]

theorem mem_jsonErase_of_ne (j : List (String × Int)) (k : String)
    (p : String × Int) (hp : p ∈ j) (hne : p.1 ≠ k) : p ∈ jsonErase j k := by
  induction j with
  | nil => cases hp
  | cons q qs ih =>
    simp only [jsonErase]
    rcases List.mem_cons.mp hp with rfl | hp
    · rw [if_neg hne]
      exact List.mem_cons_self _ _
    · split
      · exact hp
      · exact List.mem_cons_of_mem _ (ih hp)

theorem jsonErase_map_fst (j : List (String × Int)) (k : String) :
    (jsonErase j k).map Prod.fst = (j.map Prod.fst).erase k := by
  induction j with
  | nil => simp [jsonErase]
  | cons p ps ih =>
    simp only [jsonErase, List.map_cons]
    by_cases hp : p.1 = k
    · rw [if_pos hp, ← hp, List.erase_cons_head]
    · rw [if_neg hp, List.map_cons, ih, List.erase_cons_tail]
      simp [hp]

/-! ## Supporting lemmas: aggregation -/

theorem aggregateField_length (values : List Int) (v : Nat) :
    (aggregateField values v).length = min v (values.length - 2) + 2 := by
  simp [aggregateField]

/-! ## Supporting lemmas: the `check` registry loop -/

theorem checkGenome_id (fs : List GenomeField) (g : Genome)
    (h : ∀ f ∈ fs, f.lo ≤ g f.name ∧ g f.name ≤ f.hi) :
    checkGenome fs g = (g, true) := by
  induction fs with
  | nil => rfl
  | cons f fs ih =>
    have hf := h f (List.mem_cons_self f fs)
    simp only [checkGenome, checkInt_id _ _ _ hf.1 hf.2, update_self]
    rw [ih fun f2 hf2 => h f2 (List.mem_cons_of_mem _ hf2)]
    rfl

theorem checkGenome_preserve (fs : List GenomeField) (g : Genome) (n : String)
    (h : n ∉ fs.map GenomeField.name) :
    (checkGenome fs g).1 n = g n := by
  induction fs generalizing g with
  | nil => rfl
  | cons f fs ih =>
    simp only [List.map_cons, List.mem_cons] at h
    push_neg at h
    simp only [checkGenome]
    rw [ih _ h.2]
    exact update_ne g f.name _ n h.1

theorem checkGenome_range (fs : List GenomeField) (g : Genome)
    (hn : (fs.map GenomeField.name).Nodup) (f : GenomeField) (hf : f ∈ fs)
    (hb : f.lo ≤ f.hi) :
    f.lo ≤ (checkGenome fs g).1 f.name ∧ (checkGenome fs g).1 f.name ≤ f.hi := by
  induction fs generalizing g with
  | nil => cases hf
  | cons f1 fs ih =>
    simp only [List.map_cons, List.nodup_cons] at hn
    rcases List.mem_cons.mp hf with rfl | hf
    · simp only [checkGenome]
      rw [checkGenome_preserve fs _ f.name hn.1, update_same]
      exact checkInt_clamp_mem _ _ _ hb
    · simp only [checkGenome]
      exact ih _ hn.2 hf

/-! ## Supporting lemmas: the `from_json` registry loop -/

theorem fromJsonLoop_toJson_flags (fs : List GenomeField) (g g0 : Genome) :
    (fromJsonLoop fs (toJson fs g) g0).ok = true ∧
    (fromJsonLoop fs (toJson fs g) g0).rem = [] ∧
    (fromJsonLoop fs (toJson fs g) g0).errs = [] := by
  induction fs generalizing g0 with
  | nil => exact ⟨rfl, rfl, rfl⟩
  | cons f fs ih =>
    simp only [toJson, List.map_cons, fromJsonLoop, jsonFind, jsonErase,
               eq_self_iff_true, if_true]
    exact ih _

theorem fromJsonLoop_toJson_g (fs : List GenomeField) (g g0 : Genome) (n : String) :
    (fromJsonLoop fs (toJson fs g) g0).g n =
      if n ∈ fs.map GenomeField.name then g n else g0 n := by
  induction fs generalizing g0 with
  | nil => rfl
  | cons f fs ih =>
    simp only [toJson, List.map_cons, fromJsonLoop, jsonFind, jsonErase,
               eq_self_iff_true, if_true]
    rw [show (fromJsonLoop fs (List.map (fun f => (f.key, g f.name)) fs)
          (update g0 f.name (g f.name))).g n =
        if n ∈ fs.map GenomeField.name then g n
        else update g0 f.name (g f.name) n from ih _]
    by_cases hmem : n ∈ fs.map GenomeField.name
    · simp [hmem]
    · by_cases hn : n = f.name
      · subst hn
        simp [hmem, update_same]
      · simp [hmem, hn, update_ne g0 f.name _ n hn]

theorem fromJsonLoop_missing_mem (fs : List GenomeField)
    (j : List (String × Int)) (g : Genome) (f : GenomeField) (hf : f ∈ fs)
    (h : jsonFind j f.key = none) :
    ("Unable to find field " ++ f.name) ∈ (fromJsonLoop fs j g).errs := by
  induction fs generalizing j g with
  | nil => cases hf
  | cons f1 fs ih =>
    rcases List.mem_cons.mp hf with rfl | hf
    · simp only [fromJsonLoop, h]
      exact List.mem_cons_self _ _
    · cases hfind : jsonFind j f1.key with
      | some v =>
        simp only [fromJsonLoop, hfind]
        exact ih _ _ hf (jsonFind_erase_none j f1.key f.key h)
      | none =>
        simp only [fromJsonLoop, hfind]
        exact List.mem_cons_of_mem _ (ih _ _ hf h)

theorem fromJsonLoop_extra_mem (fs : List GenomeField)
    (j : List (String × Int)) (g : Genome) (p : String × Int) (hp : p ∈ j)
    (h : ∀ f ∈ fs, f.key ≠ p.1) : p ∈ (fromJsonLoop fs j g).rem := by
  induction fs generalizing j g with
  | nil => exact hp
  | cons f fs ih =>
    have hf := h f (List.mem_cons_self f fs)
    have htail := fun f2 hf2 => h f2 (List.mem_cons_of_mem _ hf2)
    cases hfind : jsonFind j f.key with
    | some v =>
      simp only [fromJsonLoop, hfind]
      exact ih _ _ (mem_jsonErase_of_ne j f.key p hp (Ne.symm hf)) htail
    | none =>
      simp only [fromJsonLoop, hfind]
      exact ih _ _ hp htail

theorem fromJsonLoop_missing_not_ok (fs : List GenomeField)
    (j : List (String × Int)) (g : Genome) (f : GenomeField) (hf : f ∈ fs)
    (h : jsonFind j f.key = none) : (fromJsonLoop fs j g).ok = false := by
  induction fs generalizing j g with
  | nil => cases hf
  | cons f1 fs ih =>
    rcases List.mem_cons.mp hf with rfl | hf
    · simp only [fromJsonLoop, h]
    · cases hfind : jsonFind j f1.key with
      | some v =>
        simp only [fromJsonLoop, hfind]
        exact ih _ _ hf (jsonFind_erase_none j f1.key f.key h)
      | none =>
        simp only [fromJsonLoop, hfind]

theorem jsonFind_some_mem (j : List (String × Int)) (k : String) (v : Int)
    (h : jsonFind j k = some v) : k ∈ j.map Prod.fst := by
  by_contra hc
  rw [(jsonFind_eq_none_iff j k).mpr hc] at h
  cases h

theorem fromJsonLoop_ok_keys (fs : List GenomeField)
    (j : List (String × Int)) (g : Genome) :
    ((fromJsonLoop fs j g).ok && (fromJsonLoop fs j g).rem.isEmpty) =
      fromJsonOkKeys fs (j.map Prod.fst) := by
  induction fs generalizing j g with
  | nil =>
    simp only [fromJsonLoop, fromJsonOkKeys, Bool.true_and]
    cases j <;> rfl
  | cons f fs ih =>
    cases hfind : jsonFind j f.key with
    | some v =>
      have hmem : f.key ∈ j.map Prod.fst := jsonFind_some_mem j f.key v hfind
      simp only [fromJsonLoop, hfind, fromJsonOkKeys, if_pos hmem]
      rw [← jsonErase_map_fst]
      exact ih _ _
    | none =>
      have hmem : f.key ∉ j.map Prod.fst := (jsonFind_eq_none_iff j f.key).mp hfind
      simp only [fromJsonLoop, hfind, fromJsonOkKeys, if_neg hmem, Bool.false_and]

/-! ## Claim C1 -/

/-- C1: for every fundamental scalar field with bounds `[min,max]`
(`min ≤ max`, the invariant asserted by the `Bounds` constructor) and
every value `v`, `check(v,min,max)` returns `true` iff `min ≤ v ≤ max`,
and the (possibly clamped) value after the call always satisfies
`min ≤ v ≤ max`. -/
theorem C1_check_iff_in_bounds (v lo hi : Int) (h : lo ≤ hi) :
    ((checkInt v lo hi).2 = true ↔ (lo ≤ v ∧ v ≤ hi)) ∧
    (lo ≤ (checkInt v lo hi).1 ∧ (checkInt v lo hi).1 ≤ hi) := by
  simp only [checkInt]
  split_ifs <;> simp_all

/-- C1 witness: instantiation at `v = 7`, bounds `[0,3]`. -/
theorem C1_check_iff_in_bounds_witness :
    (((checkInt 7 0 3).2 = true ↔ ((0:Int) ≤ 7 ∧ (7:Int) ≤ 3)) ∧
     ((0:Int) ≤ (checkInt 7 0 3).1 ∧ (checkInt 7 0 3).1 ≤ 3)) :=
  C1_check_iff_in_bounds 7 0 3 (by decide)

/-! ## Claim C2 -/

/-- C2 (code bug): for an integral field with degenerate bounds
`min = max = 0` and the in-range value `v = 0`, `_mutate` is not a
no-op: it produces `min + 1 = 1`, which lies outside `[0,0]` (and
violates the entry assertion `min <= v && v <= max` of `_mutate` itself
on any subsequent mutation).  Both outcomes of the coin toss exhibit the
escape. -/
theorem C2_mutate_degenerate_escapes_bounds :
    mutateInt 0 0 0 true = 1 ∧ mutateInt 0 0 0 false = 1 ∧
    ¬ ((0:Int) ≤ 1 ∧ (1:Int) ≤ 0) := by
  refine ⟨by decide, by decide, by decide⟩

/-! ## Claim C8 -/

/-- C8 counterexample: enum mutation does **not** wrap around.  For the
enum range `[0,3]`, mutating the boundary value `0` yields `1` (the
inward step) for both coin outcomes — never the opposite end `3`; the
boundary value `3` yields `2`, never `0`. -/
theorem C8_no_wrap_around_counterexample :
    mutateEnum 0 0 3 true = 1 ∧ mutateEnum 0 0 3 false = 1 ∧
    mutateEnum 3 0 3 true = 2 ∧ mutateEnum 3 0 3 false = 2 ∧
    (1 : Int) ≠ 3 ∧ (2 : Int) ≠ 0 := by
  refine ⟨by decide, by decide, by decide, by decide, by decide, by decide⟩

/-- C8 amended: enum mutation forwards to the integral operator, which
steps *inward* at the boundaries of the range `[min,max]`
(`min ↦ min+1`, `max ↦ max-1`) and steps by `±1` according to the coin
toss on interior values; there is no wrap-around. -/
theorem C8_enum_steps_inward (lo hi v : Int) (coin : Bool) (h : lo < hi) :
    mutateEnum lo lo hi coin = lo + 1 ∧
    mutateEnum hi lo hi coin = hi - 1 ∧
    (lo < v → v < hi →
      mutateEnum v lo hi coin = v + (if coin then -1 else 1)) := by
  unfold mutateEnum mutateInt
  refine ⟨by simp, ?_, ?_⟩
  · rw [if_neg (by omega), if_pos rfl]
  · intro h1 h2
    rw [if_neg (by omega), if_neg (by omega)]

/-- C8 amended witness: range `[0,3]`, interior value `2`, coin `false`. -/
theorem C8_enum_steps_inward_witness :
    mutateEnum 0 0 3 false = 0 + 1 ∧
    mutateEnum 3 0 3 false = 3 - 1 ∧
    ((0:Int) < 2 → (2:Int) < 3 →
      mutateEnum 2 0 3 false = 2 + (if false then -1 else 1)) :=
  C8_enum_steps_inward 0 3 2 false (by decide)

/-! ## Claim C3 -/

/-- C3 counterexample: the claim that `g` is left unchanged on the
error path of `from_json` is false.  With the two-field registry
`regXY` and a JSON object holding only field `x`, `from_json` throws
(`ok = false`, the missing field `y` is reported) and yet the field `x`
of the destination genome has been overwritten from its initial `0` to
the JSON value `5`. -/
theorem C3_partial_load_counterexample :
    (fromJson regXY [("x", 5)] gZero).ok = false ∧
    (fromJson regXY [("x", 5)] gZero).errs = ["Unable to find field y"] ∧
    (fromJson regXY [("x", 5)] gZero).g "x" = 5 ∧
    gZero "x" = 0 := by
  refine ⟨rfl, rfl, rfl, rfl⟩

/-- C3 amended: on a JSON object with missing or extra fields,
`from_json` throws `invalid_argument` whose message lists every missing
field and every extra field; however the fields that are present are
loaded into `g` before the exception is raised, so the genome may be
partially modified on the error path. -/
theorem C3_from_json_error_aggregation (reg : List GenomeField)
    (j : List (String × Int)) (g : Genome) :
    (∀ f ∈ reg, jsonFind j f.key = none →
       ("Unable to find field " ++ f.name) ∈ (fromJson reg j g).errs) ∧
    (∀ p ∈ j, (∀ f ∈ reg, f.key ≠ p.1) →
       ("Extra field " ++ p.1) ∈ (fromJson reg j g).errs) ∧
    (∀ f ∈ reg, jsonFind j f.key = none → (fromJson reg j g).ok = false) := by
  refine ⟨?_, ?_, ?_⟩
  · intro f hf h
    simp only [fromJson]
    exact List.mem_append_left _ (fromJsonLoop_missing_mem reg j g f hf h)
  · intro p hp h
    simp only [fromJson]
    refine List.mem_append_right _ ?_
    exact List.mem_map_of_mem _ (fromJsonLoop_extra_mem reg j g p hp h)
  · intro f hf h
    simp only [fromJson]
    rw [fromJsonLoop_missing_not_ok reg j g f hf h]
    rfl

/-- C3 amended witness: the missing field `y` of `regXY` is reported for
the JSON object holding only `x`. -/
theorem C3_from_json_error_aggregation_witness :
    ("Unable to find field " ++ fieldY.name) ∈
      (fromJson regXY [("x", 5)] gZero).errs :=
  (C3_from_json_error_aggregation regXY [("x", 5)] gZero).1 fieldY
    (by decide) (by decide)

/-! ## Claim C4 -/

/-- C4: serialisation round-trip.  For every genome `g` whose fields are
all within bounds, deserialising `to_json(g)` into any starting genome
returns normally and produces a genome structurally equal
(`operator==`, field by field) to `g`. -/
theorem C4_json_round_trip (reg : List GenomeField) (g g0 : Genome)
    (hin : ∀ f ∈ reg, f.lo ≤ g f.name ∧ g f.name ≤ f.hi) :
    (fromJson reg (toJson reg g) g0).ok = true ∧
    genomeEq reg (fromJson reg (toJson reg g) g0).g g = true := by
  have hflags := fromJsonLoop_toJson_flags reg g g0
  have hcheck : checkGenome reg (fromJsonLoop reg (toJson reg g) g0).g =
      ((fromJsonLoop reg (toJson reg g) g0).g, true) := by
    refine checkGenome_id reg _ fun f hf => ?_
    rw [fromJsonLoop_toJson_g reg g g0 f.name,
        if_pos (List.mem_map_of_mem GenomeField.name hf)]
    exact hin f hf
  constructor
  · simp only [fromJson]
    rw [hflags.1, hflags.2.1]
    rfl
  · simp only [fromJson, genomeEq, List.all_eq_true]
    intro f hf
    rw [hcheck]
    simp only [beq_iff_eq]
    rw [fromJsonLoop_toJson_g reg g g0 f.name,
        if_pos (List.mem_map_of_mem GenomeField.name hf)]

/-- C4 witness: round-trip of the in-bounds genome `gThree` over the
two-field registry. -/
theorem C4_json_round_trip_witness :
    (fromJson regXY (toJson regXY gThree) gZero).ok = true ∧
    genomeEq regXY (fromJson regXY (toJson regXY gThree) gZero).g gThree = true :=
  C4_json_round_trip regXY gThree gZero (by decide)

/-! ## Claim C5 -/

/-- C5: `mutate` selects one field by weighted random choice over the
mutation-rates map and modifies only that field: every other field name
keeps its value.  In a rates map with a single entry, every call selects
that entry. -/
theorem C5_mutate_single_field (reg : List GenomeField)
    (rates : List (String × ℚ)) (i : Nat) (coin : Bool) (g g2 : Genome)
    (nm : String) (h1 : pickOne rates i = some nm)
    (h2 : mutateGenome reg rates i coin g = some g2) :
    (∀ n, n ≠ nm → g2 n = g n) ∧
    (∀ nm0 w, rates = [(nm0, w)] → nm = nm0) := by
  constructor
  · intro n hn
    simp only [mutateGenome, h1] at h2
    cases hfind : reg.find? (fun f => f.name == nm) with
    | none =>
      rw [hfind] at h2
      cases h2
    | some f =>
      rw [hfind] at h2
      have hname : f.name = nm := by
        have := List.find?_some hfind
        simpa using this
      have hg : update g f.name (mutateInt (g f.name) f.lo f.hi coin) = g2 :=
        Option.some.inj h2
      rw [← hg]
      exact update_ne g f.name _ n (hname ▸ hn)
  · intro nm0 w hr
    subst hr
    simp only [pickOne, List.map_cons, List.map_nil] at h1
    cases i with
    | zero => exact (Option.some.inj h1).symm
    | succ k => cases h1

/-- C5 witness: with the single-entry rates map `ratesX` over `regXY`,
the pick is `x` and the field `y` is untouched by `mutate`. -/
theorem C5_mutate_single_field_witness :
    update gZero fieldX.name
      (mutateInt (gZero fieldX.name) fieldX.lo fieldX.hi true) "y" =
    gZero "y" :=
  (C5_mutate_single_field regXY ratesX 0 true gZero _ "x" rfl rfl).1 "y"
    (by decide)

/-! ## Claim C6 -/

/-- C6: for every genome whose fields all have non-degenerate bounds
(`min < max`, so no per-field span is zero), the aggregate genomic
distance of a genome to itself is zero. -/
theorem C6_self_distance_zero (reg : List GenomeField) (w : String → ℚ)
    (g : Genome) (_h : ∀ f ∈ reg, f.lo < f.hi) :
    distanceGenome reg w g g = 0 := by
  have go : ∀ fs : List GenomeField, ∀ d : ℚ,
      fs.foldl
        (fun d f => d + w f.name * distanceInt (g f.name) (g f.name) f.lo f.hi)
        d = d := by
    intro fs
    induction fs with
    | nil => intro d; rfl
    | cons f fs ih =>
      intro d
      simp only [List.foldl_cons]
      have hz : distanceInt (g f.name) (g f.name) f.lo f.hi = 0 := by
        simp [distanceInt]
      rw [hz, mul_zero, add_zero]
      exact ih d
  exact go reg 0

/-- C6 witness: the two-field registry (bounds `[0,10]`, spans positive)
with unit distance weights and the genome `gThree`. -/
theorem C6_self_distance_zero_witness :
    distanceGenome regXY (fun _ => 1) gThree gThree = 0 :=
  C6_self_distance_zero regXY (fun _ => 1) gThree (by decide)

/-! ## Claim C7 -/

/-- C7: `aggregate` throws `invalid_argument` on a collection of fewer
than two instances; on exactly two instances it returns normally and the
sample list of every fundamental-typed field has size
`min(verbosity+2, 2)`, i.e. exactly two values. -/
theorem C7_aggregate_size (reg : List GenomeField) (objs : List Genome)
    (v : Nat) :
    (objs.length < 2 →
      aggregate reg objs v =
        Except.error
          ("Aggregating " ++ toString objs.length ++ " makes no sense...")) ∧
    (objs.length = 2 →
      aggregate reg objs v =
        Except.ok (reg.map fun f =>
          (f.key, aggregateField (objs.map fun g => g f.name) v)) ∧
      ∀ f ∈ reg,
        (aggregateField (objs.map fun g => g f.name) v).length =
          min (v + 2) 2) := by
  constructor
  · intro h
    simp [aggregate, h]
  · intro h
    constructor
    · simp [aggregate, h]
    · intro f _
      have hlen : (objs.map fun g => g f.name).length = 2 := by
        simp [h]
      rw [aggregateField_length, hlen]
      simp [Nat.min_def]

/-- C7 witness: two instances, verbosity 5, field `x`: the sample list
has exactly two entries. -/
theorem C7_aggregate_size_witness :
    (aggregateField ([gZero, gOne].map fun g => g fieldX.name) 5).length =
      min (5 + 2) 2 :=
  ((C7_aggregate_size regXY [gZero, gOne] 5).2 (by rfl)).2 fieldX (by decide)

/-! ## Claim C9 -/

/-- C9: `random(rng)` is deterministic in its random source: the
generated genome is a function of the generator output alone, so two
runs whose generator streams agree on the consumed prefix (in
particular, two identically-seeded RNGs) produce identical genomes. -/
theorem C9_random_deterministic (reg : List GenomeField) (s1 s2 : Nat → Int)
    (h : ∀ k, k < reg.length → s1 k = s2 k) :
    randomGenome reg s1 = randomGenome reg s2 := by
  have go : ∀ (fs : List GenomeField) (k : Nat) (g : Genome),
      (∀ i, i < fs.length → s1 (k + i) = s2 (k + i)) →
      randomGo fs s1 k g = randomGo fs s2 k g := by
    intro fs
    induction fs with
    | nil => intro k g _; rfl
    | cons f fs ih =>
      intro k g hh
      simp only [randomGo]
      rw [show s1 k = s2 k by simpa using hh 0 (by simp)]
      refine ih (k + 1) _ fun i hi => ?_
      have hik : k + 1 + i = k + (i + 1) := by omega
      rw [hik]
      exact hh (i + 1) (by simpa using Nat.succ_lt_succ hi)
  refine go reg 0 _ fun i hi => ?_
  have h0 : 0 + i = i := by omega
  rw [h0]
  exact h i hi

/-- C9 witness: two runs over `regXY` from the constant stream 7
coincide. -/
theorem C9_random_deterministic_witness :
    randomGenome regXY (fun _ => 7) = randomGenome regXY (fun _ => 7) :=
  C9_random_deterministic regXY (fun _ => 7) (fun _ => 7) (fun _ _ => rfl)

/-! ## Claim C10 -/

/-- C10: `from_json` runs the genome-wide clamping `check` on the loaded
object before deciding whether to throw: after `from_json` every
bounds-driven field lies in its legal `[min,max]` range even when the
input JSON held out-of-range values, and the throw decision depends only
on the key set of the JSON object (out-of-range values are silently
clamped, never rejected). -/
theorem C10_from_json_clamps (reg : List GenomeField)
    (j : List (String × Int)) (g : Genome)
    (hn : (reg.map GenomeField.name).Nodup)
    (hb : ∀ f ∈ reg, f.lo ≤ f.hi) :
    (∀ f ∈ reg, f.lo ≤ (fromJson reg j g).g f.name ∧
                (fromJson reg j g).g f.name ≤ f.hi) ∧
    (fromJson reg j g).ok = fromJsonOkKeys reg (j.map Prod.fst) := by
  constructor
  · intro f hf
    simp only [fromJson]
    exact checkGenome_range reg _ hn f hf (hb f hf)
  · simp only [fromJson]
    exact fromJsonLoop_ok_keys reg j g

/-- C10 witness: loading the out-of-range value 99 into field `x`
(bounds `[0,10]`) leaves the deserialised field inside its range. -/
theorem C10_from_json_clamps_witness :
    fieldX.lo ≤ (fromJson regXY [("x", 99)] gZero).g fieldX.name ∧
    (fromJson regXY [("x", 99)] gZero).g fieldX.name ≤ fieldX.hi :=
  (C10_from_json_clamps regXY [("x", 99)] gZero (by decide) (by decide)).1
    fieldX (by decide)

end EDNA
